import Mathlib

/-!
Verification of the `unpriv` privilege-bypass filesystem wrapper
(`pkg/unpriv/unpriv.go`): path decomposition, the `Wrap` escalation
primitive, and the recursive `RemoveAll` algorithm, shallowly embedded
over an explicit filesystem state.

Paths are modelled as `List Char` (Go strings restricted to the path
operations the code uses).  The Go standard-library helpers the source
calls (`filepath.Clean`, `filepath.Dir`, `filepath.Join`,
`filepath.IsAbs`, `strings.Split`) are given executable models that
follow their documented lexical semantics.
-/

namespace Unpriv

/-- Paths are lists of characters (Go strings). -/
abbrev P := List Char

deriving instance DecidableEq for Except

/-- Model of OS-level errors relevant to the code: `eacces` (permission
denied), `enoent` (no such entry), `enotdir` (a non-directory met during
path resolution), `enotempty` (directory not empty on remove), `eio`
(any other I/O failure), `eof` (end of directory stream), `wrapped e`
(an error wrapped by `fmt.Errorf`, which loses the `os.PathError` type
and so is matched by none of the classification predicates), and
`nofuel` (model artifact marking recursion-fuel exhaustion). -/
inductive Err where
  | eacces
  | enoent
  | enotdir
  | enotempty
  | eio
  | eof
  | wrapped (e : Err)
  | nofuel
deriving DecidableEq, Repr

/-- Model of `os.IsPermission`. -/
def isPermission : Err → Bool
  | .eacces => true
  | _ => false

/-- Model of `os.IsNotExist` (matches only the plain missing-entry code). -/
def isGoNotExist : Err → Bool
  | .enoent => true
  | _ => false

/-- The repository's `isNotExist` helper: `os.IsNotExist(err)` or the
underlying errno is `ENOTDIR` or `ENOENT`. -/
def isNotExist : Err → Bool
  | .enoent => true
  | .enotdir => true
  | _ => false

/-! ## Path machinery (Go `path/filepath` and `strings`, Unix rules) -/

/-- Model of `strings.Split(path, "/")`: split on every separator,
keeping empty segments; splitting the empty string yields `[""]`. -/
def splitSep : P → List P
  | [] => [[]]
  | c :: rest =>
    if c = '/' then [] :: splitSep rest
    else
      match splitSep rest with
      | [] => [[c]]
      | s :: ss => (c :: s) :: ss

/-- `true` iff the path begins with the separator (`filepath.IsAbs`). -/
def isAbs : P → Bool
  | c :: _ => c = '/'
  | [] => false

/-- Core of `filepath.Clean`: process the separator-split segments,
dropping empty and `.` segments and resolving `..` against the
accumulator (which is kept in reverse order). A `..` at the start of a
rooted path is dropped; at the start of a relative path it is kept. -/
def cleanParts (rooted : Bool) : List P → List P → List P
  | acc, [] => acc.reverse
  | acc, s :: rest =>
    if s = [] ∨ s = ['.'] then cleanParts rooted acc rest
    else if s = ['.', '.'] then
      match acc with
      | [] =>
        if rooted then cleanParts rooted [] rest
        else cleanParts rooted [s] rest
      | t :: acc' =>
        if t = ['.', '.'] then cleanParts rooted (s :: t :: acc') rest
        else cleanParts rooted acc' rest
    else cleanParts rooted (s :: acc) rest

/-- Join a list of segments with single separators. -/
def joinWithSep : List P → P
  | [] => []
  | [x] => x
  | x :: y :: t => x ++ '/' :: joinWithSep (y :: t)

/-- Model of `filepath.Clean`: shortest lexically-equivalent path
(collapse separators, drop `.`, resolve inner `..`, drop rooted leading
`..`, empty result becomes `.`). -/
def clean (p : P) : P :=
  let rooted := isAbs p
  let parts := cleanParts rooted [] (splitSep p)
  let joined := joinWithSep parts
  if rooted then '/' :: joined
  else if joined = [] then ['.'] else joined

/-- Everything up to and including the last separator (empty if none). -/
def dropLastComponent (p : P) : P :=
  (p.reverse.dropWhile (fun c => ¬ (c = '/'))).reverse

/-- Model of `filepath.Dir`: `Clean` of the path with its last element
removed; `.` when the path contains no separator. -/
def dirname (p : P) : P := clean (dropLastComponent p)

/-- The characters after the last separator (used to extract a child's
name from its full path in the filesystem model). -/
def baseName (p : P) : P :=
  (p.reverse.takeWhile (fun c => ¬ (c = '/'))).reverse

/-- Model of `filepath.Join`: skip leading empty elements, join the rest
with separators, and `Clean` the result; all-empty input yields `""`. -/
def joinPath : List P → P
  | [] => []
  | e :: rest => if e = [] then joinPath rest else clean (joinWithSep (e :: rest))

/-- The repository's `splitpath`: `Clean` the path, `strings.Split` it on
the separator, and prepend the separator as a root marker when the path
is absolute. -/
def splitpath (path : P) : List P :=
  let path := clean path
  let parts := splitSep path
  if isAbs path then ['/'] :: parts else parts

/-- Convert a literal to a model path. -/
def pth (s : String) : P := s.toList

/-! ## Filesystem model

The filesystem is an association list from cleaned absolute (or
`.`-relative) paths to metadata.  The invoking process is the owner of
every object, so permission checks consult the owner (`0o700`) bit
triplet: resolving a path demands the execute bit on every proper
ancestor directory (`EACCES` when missing), an entry that is absent
gives `ENOENT`, and a non-directory in ancestor position gives
`ENOTDIR` — exactly the error classes the repository's predicates
distinguish. -/

/-- Metadata snapshot of one filesystem object (`os.FileInfo`): its
permission bits, access/modification times, and directory flag. -/
structure FileInfo where
  mode : Nat
  atime : Int
  mtime : Int
  isDir : Bool
deriving DecidableEq, Repr

/-- Filesystem state: association list from cleaned paths to metadata. -/
abbrev FS := List (P × FileInfo)

/-- Look up a path in the filesystem. -/
def lookupFS : FS → P → Option FileInfo
  | [], _ => none
  | (k, fi) :: rest, p => if k = p then some fi else lookupFS rest p

/-- Update the metadata at a path (no-op when absent). -/
def updateFS (fs : FS) (p : P) (f : FileInfo → FileInfo) : FS :=
  fs.map (fun kv => if kv.1 = p then (kv.1, f kv.2) else kv)

/-- Remove an entry from the filesystem. -/
def eraseFS (fs : FS) (p : P) : FS :=
  fs.filter (fun kv => ¬ (kv.1 = p))

/-- Iterated `dirname` with fuel (a cleaned path's parent chain
stabilises after at most `length + 2` steps). -/
def ancChainAux : Nat → P → List P
  | 0, _ => []
  | n + 1, q =>
    let d := dirname q
    if d = q then [] else ancChainAux n d ++ [d]

/-- The proper ancestors of a path, outermost first (for `/a/b/c` this
is `/`, `/a`, `/a/b`). -/
def ancChain (p : P) : List P := ancChainAux (p.length + 2) (clean p)

/-- Walk an ancestor list outermost-first and report the first
resolution failure: a missing ancestor is `ENOENT`, a non-directory
ancestor is `ENOTDIR`, an ancestor without the owner execute bit is
`EACCES`. -/
def firstErrAnc (fs : FS) : List P → Option Err
  | [] => none
  | a :: rest =>
    match lookupFS fs a with
    | none => some .enoent
    | some fi =>
      if ¬ fi.isDir then some .enotdir
      else if fi.mode &&& 0o100 = 0 then some .eacces
      else firstErrAnc fs rest

/-- Model of `os.Lstat`: resolve the ancestors, then return the entry's
metadata (`ENOENT` when absent). -/
def lstatOp (fs : FS) (p : P) : Except Err FileInfo :=
  let q := clean p
  match firstErrAnc fs (ancChain q) with
  | some e => .error e
  | none =>
    match lookupFS fs q with
    | none => .error .enoent
    | some fi => .ok fi

/-- Model of `os.Chmod`: resolve like `lstat` (the caller owns the
object, so ownership never blocks the change), then replace the
permission bits. -/
def chmodOp (fs : FS) (p : P) (m : Nat) : Except Err FS :=
  let q := clean p
  match firstErrAnc fs (ancChain q) with
  | some e => .error e
  | none =>
    match lookupFS fs q with
    | none => .error .enoent
    | some _ => .ok (updateFS fs q (fun fi => { fi with mode := m }))

/-- Model of `os.Chtimes`: resolve, then replace the times. -/
def chtimesOp (fs : FS) (p : P) (at' mt : Int) : Except Err FS :=
  let q := clean p
  match firstErrAnc fs (ancChain q) with
  | some e => .error e
  | none =>
    match lookupFS fs q with
    | none => .error .enoent
    | some _ => .ok (updateFS fs q (fun fi => { fi with atime := at', mtime := mt }))

/-- The names of the direct children of a directory. -/
def childNames (fs : FS) (q : P) : List P :=
  fs.filterMap (fun kv =>
    if ¬ (kv.1 = q) ∧ dirname kv.1 = q then some (baseName kv.1) else none)

/-- Model of `os.Remove`: resolve the ancestors, require the entry to
exist, require owner write permission on the containing directory, and
refuse to remove a non-empty directory (`ENOTEMPTY`) or a root-like
path that is its own parent. -/
def removeOp (fs : FS) (p : P) : Except Err FS :=
  let q := clean p
  match firstErrAnc fs (ancChain q) with
  | some e => .error e
  | none =>
    match lookupFS fs q with
    | none => .error .enoent
    | some fi =>
      let d := dirname q
      if d = q then .error .eio
      else
        match lookupFS fs d with
        | none => .error .enoent
        | some dfi =>
          if dfi.mode &&& 0o200 = 0 then .error .eacces
          else if fi.isDir ∧ ¬ (childNames fs q = []) then .error .enotempty
          else .ok (eraseFS fs q)

/-- Model of `os.Open` for reading: resolve, require the owner read bit
on the object, and (for a directory) capture a snapshot of its child
names — the model of the directory handle later consumed in batches by
`Readdirnames`. -/
def openOp (fs : FS) (p : P) : Except Err (List P) :=
  let q := clean p
  match firstErrAnc fs (ancChain q) with
  | some e => .error e
  | none =>
    match lookupFS fs q with
    | none => .error .enoent
    | some fi =>
      if fi.mode &&& 0o400 = 0 then .error .eacces
      else .ok (if fi.isDir then childNames fs q else [])

/-! ## Events

Each run of the embedded code also produces a chronological trace of
the externally observable actions it performed, used to state the
ordering claims. -/

/-- Observable actions: a call of the wrapped unit of work, an
escalation chmod performed by `Wrap`'s loop (recording the captured
pre-escalation metadata and the mode that was set), a `fiRestore`
invocation (recording the snapshot it reapplies), a plain chmod
performed by an operation closure, closing a directory handle, and an
`os.Remove` attempt. -/
inductive Event where
  | fnCall
  | escalate (p : P) (fi : FileInfo) (newMode : Nat)
  | restore (p : P) (fi : FileInfo)
  | chmodEv (p : P) (m : Nat)
  | closeDir (p : P)
  | removeAttempt (p : P)
deriving DecidableEq, Repr

/-- The repository's `fiRestore`: best-effort reapplication of a
snapshot's mode and then its times; errors from either step are
discarded and never change the caller's outcome. -/
def fiRestoreOp (fs : FS) (p : P) (fi : FileInfo) : FS × List Event :=
  let fs1 := match chmodOp fs p fi.mode with
    | .ok fs' => fs'
    | .error _ => fs
  let fs2 := match chtimesOp fs1 p fi.atime fi.mtime with
    | .ok fs' => fs'
    | .error _ => fs1
  (fs2, [Event.restore p fi])

/-! ## The escalation primitive `Wrap`

`Wrap(path, fn)` first runs `fn(path)`; on a permission failure it
splits the parent of `path` into components, shrinks prefixes from
the end until one `Lstat`s, chmods every prefix from that point
through the full parent to `mode | 0700` while registering a deferred
`fiRestore` for each, re-runs `fn(path)`, and unwinds the deferred
restores (innermost first) on every exit path. -/

/-- The shrinking-prefix search of `Wrap` (lines 93–106): starting from
the full component list of the parent, `Lstat` each prefix, stopping at
the first success; a non-permission failure is returned as a wrapped
fatal error.  (At prefix length 0 the joined path is empty and its
`Lstat` yields `ENOENT`, so the loop can never step below zero.) -/
def searchStart (fs : FS) (parts : List P) : Nat → Except Err Nat
  | 0 =>
    match lstatOp fs (joinPath (parts.take 0)) with
    | .ok _ => .ok 0
    | .error e => .error (Err.wrapped e)
  | k + 1 =>
    match lstatOp fs (joinPath (parts.take (k + 1))) with
    | .ok _ => .ok (k + 1)
    | .error e =>
      if isPermission e then searchStart fs parts k
      else .error (Err.wrapped e)

/-- One escalation performed by `Wrap`'s walk: the prefix path, the
metadata snapshot captured just before the chmod, and the mode the
chmod set. -/
structure Esc where
  path : P
  fi : FileInfo
  newMode : Nat
deriving DecidableEq, Repr

/-- Result of the escalation walk: the state, an error if the walk
aborted, the escalations in chronological order, the deferred-restore
stack (most recent first, as Go's `defer` registers them), and the
events. -/
structure EscOut where
  fs : FS
  err : Option Err
  escs : List Esc
  stack : List (P × FileInfo)
  evs : List Event
deriving Repr

/-- The escalation walk of `Wrap` (lines 108–120): for each prefix index
`i` from `start` to the full parent length inclusive, `Lstat` the
prefix, chmod it to its mode with `0o700` added, and register the
captured snapshot for deferred restoration.  A failing `Lstat` or chmod
aborts with a wrapped fatal error (the already-registered restores are
still run by the caller).  `n` counts the remaining iterations
(`parts.length + 1 - start` at the call site). -/
def escalateLoop (parts : List P) : Nat → Nat → FS → List Esc →
    List (P × FileInfo) → List Event → EscOut
  | 0, _, fs, escs, stack, evs => ⟨fs, none, escs, stack, evs⟩
  | n + 1, i, fs, escs, stack, evs =>
    match lstatOp fs (joinPath (parts.take i)) with
    | .error e => ⟨fs, some (Err.wrapped e), escs, stack, evs⟩
    | .ok fi =>
      match chmodOp fs (joinPath (parts.take i)) (fi.mode ||| 0o700) with
      | .error e => ⟨fs, some (Err.wrapped e), escs, stack, evs⟩
      | .ok fs' =>
        escalateLoop parts n (i + 1) fs'
          (escs ++ [⟨joinPath (parts.take i), fi, fi.mode ||| 0o700⟩])
          ((joinPath (parts.take i), fi) :: stack)
          (evs ++ [Event.escalate (joinPath (parts.take i)) fi (fi.mode ||| 0o700)])

/-- Run the deferred `fiRestore`s in stack order (most recently
registered first), returning the restores actually performed in
execution order. -/
def runRestores (fs : FS) : List (P × FileInfo) → FS × List Event × List (P × FileInfo)
  | [] => (fs, [], [])
  | (p, fi) :: rest =>
    let r1 := fiRestoreOp fs p fi
    let r2 := runRestores r1.1 rest
    (r2.1, r1.2 ++ r2.2.1, (p, fi) :: r2.2.2)

/-- Instrumented result of a `Wrap` call: final state, returned error,
chronological event trace, the escalations performed by `Wrap`'s own
loop (in escalation order), the `fiRestore`s it executed while
unwinding (in execution order), the prefix length at which the
shrinking search stopped (`none` when no escalation was attempted or
the search failed), and the caller's closure-captured payload. -/
structure WrapOut (α : Type) where
  fs : FS
  res : Option Err
  trace : List Event
  escs : List Esc
  rsts : List (P × FileInfo)
  start : Option Nat
  payload : α

/-- The repository's `Wrap` (lines 82–124).  The unit of work `fn` is an
arbitrary state transformer over the filesystem which may also record
events and update a closure-captured payload (Go closures assign to
captured variables such as `fh`).  `fn` is called once up front; on a
permission failure the parent prefixes are searched and escalated and
`fn` is called again, after which every escalated ancestor is restored
from its captured snapshot in reverse (innermost-first) order —
also when the search or the escalation walk aborts partway. -/
def Wrap {α : Type} (fs0 : FS) (path : P)
    (fn : P → FS → FS × Option Err × List Event × α) : WrapOut α :=
  let r1 := fn path fs0
  let fs1 := r1.1
  let evs1 := Event.fnCall :: r1.2.2.1
  let a1 := r1.2.2.2
  match r1.2.1 with
  | none => ⟨fs1, none, evs1, [], [], none, a1⟩
  | some e =>
    if ¬ isPermission e then ⟨fs1, some e, evs1, [], [], none, a1⟩
    else
      let parts := splitpath (dirname path)
      match searchStart fs1 parts parts.length with
      | .error e' => ⟨fs1, some e', evs1, [], [], none, a1⟩
      | .ok s =>
        let eo := escalateLoop parts (parts.length + 1 - s) s fs1 [] [] []
        match eo.err with
        | some e' =>
          let rr := runRestores eo.fs eo.stack
          ⟨rr.1, some e', evs1 ++ eo.evs ++ rr.2.1, eo.escs, rr.2.2, some s, a1⟩
        | none =>
          let r2 := fn path eo.fs
          let evs2 := Event.fnCall :: r2.2.2.1
          let a2 := r2.2.2.2
          let rr := runRestores r2.1 eo.stack
          ⟨rr.1, r2.2.1, evs1 ++ eo.evs ++ evs2 ++ rr.2.1, eo.escs, rr.2.2, some s, a2⟩

/-! ## The operation library and `RemoveAll`

`RemoveAll` (lines 313–384) wraps a closure with `Wrap`: try a plain
remove; if the path is a directory, open it through `unpriv.Open`,
chmod it to `mode | 0400`, recursively remove the children in batches
of 128 names while recording only the first child error, then close,
remove the emptied directory, and (by the deferred `fiRestore`) restore
the directory's captured metadata on the way out. -/

/-- The closure of `unpriv.Open` (lines 132–152): snapshot the leaf,
chmod it to `mode | 0400`, open it for reading (for a directory the
handle is modelled as the snapshot of its child names), and restore the
leaf's metadata by the deferred `fiRestore` before returning. -/
def openClosure (p : P) (fs : FS) : FS × Option Err × List Event × Option (List P) :=
  match lstatOp fs p with
  | .error e => (fs, some e, [], none)
  | .ok fi =>
    match chmodOp fs p (fi.mode ||| 0o400) with
    | .error e => (fs, some e, [], none)
    | .ok fs1 =>
      let ev1 := [Event.chmodEv p (fi.mode ||| 0o400)]
      match openOp fs1 p with
      | .ok names =>
        let rr := fiRestoreOp fs1 p fi
        (rr.1, none, ev1 ++ rr.2, some names)
      | .error e =>
        let rr := fiRestoreOp fs1 p fi
        (rr.1, some e, ev1 ++ rr.2, none)

/-- `unpriv.Open`: the open closure routed through `Wrap`. -/
def unprivOpen (fs : FS) (p : P) : WrapOut (Option (List P)) :=
  Wrap fs p openClosure

/-- The tail of the `RemoveAll` closure (lines 371–382 together with the
deferred `fiRestore` registered at line 348): close the directory
handle, attempt `os.Remove` of the now-emptied directory, treat an
already-gone result as success, otherwise return the first child error
if one was recorded and the removal error only when none was; the
deferred restore of the directory's captured metadata runs after the
removal attempt, on every path out of the closure. -/
def removeAllFinish (fs : FS) (path : P) (fi : FileInfo) (childErr : Option Err) :
    FS × Option Err × List Event :=
  let r := removeOp fs path
  let fs1 := match r with
    | .ok f => f
    | .error _ => fs
  let ret : Option Err :=
    match r with
    | .ok _ => none
    | .error e1 =>
      if isGoNotExist e1 then none
      else
        match childErr with
        | none => some e1
        | some ce => some ce
  let rr := fiRestoreOp fs1 path fi
  (rr.1, ret, [Event.closeDir path, Event.removeAttempt path] ++ rr.2)

/-- The child-removal loop of `RemoveAll` (lines 351–369): repeatedly
take a batch of up to 128 names from the directory handle's snapshot,
recurse (`ra` is the recursive `RemoveAll` at smaller fuel) on each
joined child path, and keep only the first error encountered while
still visiting every sibling.  `n` is a structural bound on the number
of batches (the caller passes the snapshot length). -/
def removeChildren (ra : FS → P → FS × Option Err × List Event) (path : P) :
    Nat → FS → List P → Option Err → FS × Option Err × List Event
  | _, fs, [], err => (fs, err, [])
  | 0, fs, _ :: _, err => (fs, err, [])
  | n + 1, fs, names@(_ :: _), err =>
    let batch := names.take 128
    let rest := names.drop 128
    let step := batch.foldl
      (fun st name =>
        let r := ra st.1 (joinPath [path, name])
        (r.1, (if st.2.1 = none then r.2.1 else st.2.1), st.2.2 ++ r.2.2))
      (fs, err, ([] : List Event))
    let out := removeChildren ra path n step.1 rest step.2.1
    (out.1, out.2.1, step.2.2 ++ out.2.2)

/-- The directory phase of the `RemoveAll` closure after a successful
open (lines 344–382): chmod the directory to `mode | 0400` (result
ignored) so its names can be read, remove the children, then run the
finishing sequence (close, final remove, deferred restore). -/
def removeAllLoopPhase (ra : FS → P → FS × Option Err × List Event)
    (fs : FS) (path : P) (fi : FileInfo) (names : List P) :
    FS × Option Err × List Event :=
  let fs1 := match chmodOp fs path (fi.mode ||| 0o400) with
    | .ok f => f
    | .error _ => fs
  let ev1 := [Event.chmodEv path (fi.mode ||| 0o400)]
  let c := removeChildren ra path names.length fs1 names none
  let f := removeAllFinish c.1 path fi c.2.1
  (f.1, f.2.1, ev1 ++ c.2.2 ++ f.2.2)

/-- The directory branch of the `RemoveAll` closure (lines 334–384):
open the directory through `unpriv.Open` (tolerating an already-gone
race) and run the loop phase on the captured name snapshot. -/
def removeAllDir (ra : FS → P → FS × Option Err × List Event)
    (fs : FS) (path : P) (fi : FileInfo) : FS × Option Err × List Event :=
  let o := unprivOpen fs path
  match o.res with
  | some e => (o.fs, (if isGoNotExist e then none else some e), o.trace)
  | none =>
    let r := removeAllLoopPhase ra o.fs path fi (o.payload.getD [])
    (r.1, r.2.1, o.trace ++ r.2.2)

/-- The closure `RemoveAll` passes to `Wrap` (lines 314–383): plain
remove first (already-gone counts as success); stat to decide whether
the path is a directory, tolerating a vanished path via the repository's
dual `isNotExist` check; surface the original removal error for
non-directories; otherwise run the directory branch. -/
def removeAllClosure (ra : FS → P → FS × Option Err × List Event)
    (path : P) (fs : FS) : FS × Option Err × List Event :=
  match removeOp fs path with
  | .ok fs' => (fs', none, [Event.removeAttempt path])
  | .error e =>
    if isGoNotExist e then (fs, none, [Event.removeAttempt path])
    else
      match lstatOp fs path with
      | .error serr =>
        (fs, (if isNotExist serr then none else some serr), [Event.removeAttempt path])
      | .ok fi =>
        if ¬ fi.isDir then (fs, some e, [Event.removeAttempt path])
        else
          let r := removeAllDir ra fs path fi
          (r.1, r.2.1, Event.removeAttempt path :: r.2.2)

/-- The repository's `RemoveAll`, with recursion fuel (the Go function
recurses on the real directory tree; any fuel at least the tree depth
plus one behaves identically, and exhausted fuel returns the model-only
`nofuel` marker). -/
def removeAllFuel : Nat → FS → P → FS × Option Err × List Event
  | 0, fs, _ => (fs, some Err.nofuel, [])
  | n + 1, fs, path =>
    let o := Wrap fs path (fun p fs' =>
      let r := removeAllClosure (removeAllFuel n) p fs'
      (r.1, r.2.1, r.2.2, ()))
    (o.fs, o.res, o.trace)

/-! ## Concrete scenario fixtures

Small concrete filesystems and units of work used to instantiate the
theorems and to exhibit counterexamples: directory chains in which some
ancestors lack their owner execute bit, mirroring the spec's testable
scenarios. -/

/-- A directory entry with the given permission bits. -/
def dirFi (m : Nat) : FileInfo := ⟨m, 11, 12, true⟩

/-- A regular-file entry with the given permission bits. -/
def fileFi (m : Nat) : FileInfo := ⟨m, 21, 22, false⟩

/-- The error component of an `Except` result. -/
def errOf {β : Type} : Except Err β → Option Err
  | .ok _ => none
  | .error e => some e

/-- A unit of work that `Lstat`s its path (the closure of
`unpriv.Lstat`, lines 209–218). -/
def fnLstat (p : P) (fs : FS) : FS × Option Err × List Event × Unit :=
  (fs, errOf (lstatOp fs p), [], ())

/-- A unit of work that always fails with a permission error. -/
def fnPerm (_ : P) (fs : FS) : FS × Option Err × List Event × Unit :=
  (fs, some Err.eacces, [], ())

/-- Three-level chain `/a/b/c` where only the outermost directory `/a`
is non-traversable (mode `0`). -/
def fs3 : FS :=
  [(pth "/", dirFi 0o755), (pth "/a", dirFi 0), (pth "/a/b", dirFi 0o755),
   (pth "/a/b/c", fileFi 0o644)]

/-- Four-level chain `/a/b/c/d` where the two outermost directories
`/a` and `/a/b` are non-traversable (mode `0`). -/
def fs4 : FS :=
  [(pth "/", dirFi 0o755), (pth "/a", dirFi 0), (pth "/a/b", dirFi 0),
   (pth "/a/b/c", dirFi 0o755), (pth "/a/b/c/d", fileFi 0o644)]

/-- A filesystem holding only the root directory. -/
def fsRoot : FS := [(pth "/", dirFi 0)]

/-- Directory `/d` (mode `0700`) containing one file, inside a normal
root. -/
def fsD : FS :=
  [(pth "/", dirFi 0o755), (pth "/d", dirFi 0o700), (pth "/d/f", fileFi 0o644)]

/-- Directory `/d` with mode `0` containing one file. -/
def fsD0 : FS :=
  [(pth "/", dirFi 0o755), (pth "/d", dirFi 0), (pth "/d/f", fileFi 0o644)]

/-- A filesystem with a normal root and nothing else (the target of a
removal is already gone). -/
def fsGone : FS := [(pth "/", dirFi 0o755)]

/-- A file `/a/b` inside a non-traversable parent `/a` (mode `0`). -/
def fsPB : FS :=
  [(pth "/", dirFi 0o755), (pth "/a", dirFi 0), (pth "/a/b", fileFi 0o644)]

/-- Whether an event concerns the given path. -/
def onPath (q : P) : Event → Bool
  | .fnCall => false
  | .escalate p _ _ => p = q
  | .restore p _ => p = q
  | .chmodEv p _ => p = q
  | .closeDir p => p = q
  | .removeAttempt p => p = q

/-- The modes set by the plain (non-escalation) chmod events on the
given path, in order. -/
def chmodModesOn (q : P) (evs : List Event) : List Nat :=
  evs.filterMap (fun e =>
    match e with
    | .chmodEv p m => if p = q then some m else none
    | _ => none)

/-! ## Spec-side definition for path decomposition

The specification describes `splitpath` as returning "the cleaned,
ordered component list, with the root marker as the first element if
the path is absolute"; the following definition follows those words, to
be compared against the code's `splitpath`. -/

/-- The root marker (the separator itself). -/
def rootMarker : P := ['/']

/-- The cleaned component list of a path as the spec words it: the
non-empty separator-delimited segments of the cleaned path. -/
def cleanComponents (p : P) : List P :=
  (splitSep (clean p)).filter (fun s => ¬ (s = []))

/-- The spec's description of `splitpath`: the cleaned component list,
with the root marker prepended exactly when the path is absolute and no
other elements. -/
def splitpathSpec (p : P) : List P :=
  if isAbs (clean p) then rootMarker :: cleanComponents p else cleanComponents p

/-! ## Sanity checks of the path model against Go's documented
behaviour -/

example : clean (pth "/a/b/..") = pth "/a" := by decide
example : clean (pth "a/b/../../../c") = pth "../c" := by decide
example : clean (pth "") = pth "." := by decide
example : clean (pth "/") = pth "/" := by decide
example : clean (pth "a//b/./") = pth "a/b" := by decide
example : dirname (pth "/a/b/c") = pth "/a/b" := by decide
example : dirname (pth "a") = pth "." := by decide
example : dirname (pth "/") = pth "/" := by decide
example : splitpath (pth "/a/b") = [pth "/", pth "", pth "a", pth "b"] := by decide
example : splitpath (pth "a/b") = [pth "a", pth "b"] := by decide
example : joinPath [pth "/", pth "", pth "a", pth "b"] = pth "/a/b" := by decide
example : joinPath [] = pth "" := by decide
example : ancChain (pth "/a/b/c") = [pth "/", pth "/a", pth "/a/b"] := by decide
example : ancChain (pth "/") = [] := by decide
example : ancChain (pth "a/b") = [pth ".", pth "a"] := by decide

/-! ## Lemmas about the escalation machinery -/

/-- `runRestores` executes exactly the restores on its stack, in stack
order. -/
theorem runRestores_exec (fs : FS) (l : List (P × FileInfo)) :
    (runRestores fs l).2.2 = l := by
  induction l generalizing fs with
  | nil => rfl
  | cons x rest ih => cases x; simp [runRestores, ih]

/-- The escalation walk pushes each escalation it performs onto the
deferred-restore stack, so the stack is always the reverse of the
chronological escalation list. -/
theorem escalateLoop_stack_inv (parts : List P) :
    ∀ n i fs escs stack evs,
      stack = (escs.map (fun er => (er.path, er.fi))).reverse →
      (escalateLoop parts n i fs escs stack evs).stack
        = ((escalateLoop parts n i fs escs stack evs).escs.map
            (fun er => (er.path, er.fi))).reverse := by
  intro n
  induction n with
  | zero => intro i fs escs stack evs h; simpa [escalateLoop] using h
  | succ n ih =>
    intro i fs escs stack evs h
    simp only [escalateLoop]
    split
    · simpa using h
    · split
      · simpa using h
      · exact ih _ _ _ _ _ (by simp [h])

/-- C1: for every filesystem, path and unit of work, and on every exit
path of `Wrap` (first call succeeds or fails without permission error,
the shrinking search aborts, the escalation walk aborts partway, or the
re-invoked work runs to completion), the deferred `fiRestore`s that
`Wrap` executes before returning are exactly the escalations it
performed, each applied with its captured pre-escalation metadata
snapshot, in strict reverse (innermost-first, LIFO) order of
escalation. -/
theorem wrap_restores_all_lifo {α : Type} (fs0 : FS) (path : P)
    (fn : P → FS → FS × Option Err × List Event × α) :
    (Wrap fs0 path fn).rsts
      = ((Wrap fs0 path fn).escs.map (fun er => (er.path, er.fi))).reverse := by
  have hstack : ∀ parts n i fs,
      (escalateLoop parts n i fs [] [] []).stack
        = ((escalateLoop parts n i fs [] [] []).escs.map
            (fun er => (er.path, er.fi))).reverse :=
    fun parts n i fs => escalateLoop_stack_inv parts n i fs [] [] [] rfl
  simp only [Wrap]
  split
  · rfl
  · split
    · rfl
    · split
      · rfl
      · split
        · simp [runRestores_exec, hstack]
        · simp [runRestores_exec, hstack]

/-- An `Lstat` of the empty prefix (prefix length zero, joined to the
empty path) can only fail with `ENOENT`, never with a permission error:
this is why the shrinking search always terminates via either a success
or a fatal non-permission error. -/
theorem lstat_empty_enoent (fs : FS) (e : Err) :
    lstatOp fs (joinPath []) = .error e → e = Err.enoent := by
  have h1 : ancChain (clean (joinPath [])) = [] := by decide
  simp only [lstatOp, h1, firstErrAnc]
  cases lookupFS fs (clean (joinPath [])) with
  | none => intro h; exact (Except.error.inj h).symm
  | some fi => intro h; exact Except.noConfusion h

/-- A successful shrinking search returns a prefix length whose join
`Lstat`s successfully while every longer prefix (up to the starting
length) failed with a permission error. -/
theorem searchStart_ok_spec (fs : FS) (parts : List P) :
    ∀ k s, searchStart fs parts k = .ok s →
      s ≤ k ∧ (∃ fi, lstatOp fs (joinPath (parts.take s)) = .ok fi) ∧
      ∀ i, s < i → i ≤ k →
        ∃ e, lstatOp fs (joinPath (parts.take i)) = .error e ∧ isPermission e = true := by
  intro k
  induction k with
  | zero =>
    intro s h
    simp only [searchStart] at h
    split at h
    · rename_i fi heq
      have hs : s = 0 := (Except.ok.inj h).symm
      subst hs
      exact ⟨le_refl 0, ⟨fi, heq⟩, fun i h1 h2 => absurd (lt_of_lt_of_le h1 h2) (lt_irrefl 0)⟩
    · exact Except.noConfusion h
  | succ k ih =>
    intro s h
    simp only [searchStart] at h
    split at h
    · rename_i fi heq
      have hs : s = k + 1 := (Except.ok.inj h).symm
      subst hs
      exact ⟨le_refl _, ⟨fi, heq⟩,
        fun i h1 h2 => absurd (lt_of_lt_of_le h1 h2) (lt_irrefl _)⟩
    · rename_i e heq
      by_cases hp : isPermission e
      · rw [if_pos hp] at h
        obtain ⟨hsk, hok, hall⟩ := ih s h
        refine ⟨le_trans hsk (Nat.le_succ k), hok, fun i h1 h2 => ?_⟩
        rcases Nat.lt_or_ge i (k + 1) with hik | hik
        · exact hall i h1 (Nat.lt_succ_iff.mp hik)
        · have : i = k + 1 := le_antisymm h2 hik
          subst this
          exact ⟨e, heq, hp⟩
      · rw [if_neg hp] at h; exact Except.noConfusion h

/-- A failed shrinking search means some prefix failed to `Lstat` for a
non-permission reason (every longer prefix having failed with a
permission error), and the returned error is that failure wrapped as a
fatal error. -/
theorem searchStart_err_spec (fs : FS) (parts : List P) :
    ∀ k e', searchStart fs parts k = .error e' →
      ∃ i e, i ≤ k ∧ lstatOp fs (joinPath (parts.take i)) = .error e ∧
        isPermission e = false ∧ e' = Err.wrapped e ∧
        ∀ j, i < j → j ≤ k →
          ∃ e2, lstatOp fs (joinPath (parts.take j)) = .error e2 ∧ isPermission e2 = true := by
  intro k
  induction k with
  | zero =>
    intro e' h
    simp only [searchStart] at h
    split at h
    · exact Except.noConfusion h
    · rename_i e heq
      have he : e = Err.enoent := lstat_empty_enoent fs e (by simpa using heq)
      refine ⟨0, e, le_refl 0, heq, by simp [he, isPermission], (Except.error.inj h).symm,
        fun j h1 h2 => absurd (lt_of_lt_of_le h1 h2) (lt_irrefl 0)⟩
  | succ k ih =>
    intro e' h
    simp only [searchStart] at h
    split at h
    · exact Except.noConfusion h
    · rename_i e heq
      by_cases hp : isPermission e
      · rw [if_pos hp] at h
        obtain ⟨i, e2, hik, hle, hperm, hwrap, hall⟩ := ih e' h
        refine ⟨i, e2, le_trans hik (Nat.le_succ k), hle, hperm, hwrap,
          fun j h1 h2 => ?_⟩
        rcases Nat.lt_or_ge j (k + 1) with hjk | hjk
        · exact hall j h1 (Nat.lt_succ_iff.mp hjk)
        · have : j = k + 1 := le_antisymm h2 hjk
          subst this
          exact ⟨e, heq, hp⟩
      · rw [if_neg hp] at h
        exact ⟨k + 1, e, le_refl _, heq, by simpa using hp, (Except.error.inj h).symm,
          fun j h1 h2 => absurd (lt_of_lt_of_le h1 h2) (lt_irrefl _)⟩

/-- When the first invocation of the work fails with a permission error,
`Wrap` either finds a start point (recorded in `start`) via the
shrinking search or returns the search's fatal error without escalating
anything. -/
theorem wrap_start_cases {α : Type} (fs0 : FS) (path : P)
    (fn : P → FS → FS × Option Err × List Event × α)
    (e0 : Err) (h1 : (fn path fs0).2.1 = some e0) (h2 : isPermission e0 = true) :
    (∃ s, searchStart (fn path fs0).1 (splitpath (dirname path))
        (splitpath (dirname path)).length = .ok s ∧ (Wrap fs0 path fn).start = some s) ∨
    (∃ e', searchStart (fn path fs0).1 (splitpath (dirname path))
        (splitpath (dirname path)).length = .error e' ∧
      (Wrap fs0 path fn).start = none ∧ (Wrap fs0 path fn).res = some e' ∧
      (Wrap fs0 path fn).escs = [] ∧ (Wrap fs0 path fn).rsts = []) := by
  simp only [Wrap, h1]
  simp only [h2, not_true, if_false]
  split
  · rename_i e' heq
    right
    exact ⟨e', heq, rfl, rfl, rfl, rfl⟩
  · rename_i s heq
    left
    refine ⟨s, heq, ?_⟩
    split <;> rfl

/-- C2: when the initial invocation of the unit of work fails with a
permission error, `Wrap` decomposes the parent of the path into
components and no-follow-stats shrinking prefixes from the full parent
component list downward: the recorded start point is a prefix length
that stats successfully while every longer prefix failed with a
permission error; and if the search instead hits a non-permission stat
failure, `Wrap` returns that failure wrapped as a fatal error and
escalates (and restores) nothing. -/
theorem wrap_shrinking_search {α : Type} (fs0 : FS) (path : P)
    (fn : P → FS → FS × Option Err × List Event × α)
    (e0 : Err) (h1 : (fn path fs0).2.1 = some e0) (h2 : isPermission e0 = true) :
    (∀ s, (Wrap fs0 path fn).start = some s →
      s ≤ (splitpath (dirname path)).length ∧
      (∃ fi, lstatOp (fn path fs0).1
        (joinPath ((splitpath (dirname path)).take s)) = .ok fi) ∧
      ∀ i, s < i → i ≤ (splitpath (dirname path)).length →
        ∃ e, lstatOp (fn path fs0).1
          (joinPath ((splitpath (dirname path)).take i)) = .error e ∧
          isPermission e = true) ∧
    ((Wrap fs0 path fn).start = none →
      (Wrap fs0 path fn).escs = [] ∧ (Wrap fs0 path fn).rsts = [] ∧
      ∃ i e, i ≤ (splitpath (dirname path)).length ∧
        lstatOp (fn path fs0).1
          (joinPath ((splitpath (dirname path)).take i)) = .error e ∧
        isPermission e = false ∧ (Wrap fs0 path fn).res = some (Err.wrapped e)) := by
  rcases wrap_start_cases fs0 path fn e0 h1 h2 with
    ⟨s, hsearch, hstart⟩ | ⟨e', hsearch, hstart, hres, hescs, hrsts⟩
  · constructor
    · intro s' hs'
      have : s' = s := by rw [hstart] at hs'; exact (Option.some.inj hs').symm
      subst this
      exact searchStart_ok_spec _ _ _ _ hsearch
    · intro hnone; rw [hstart] at hnone; exact Option.noConfusion hnone
  · constructor
    · intro s' hs'; rw [hstart] at hs'; exact Option.noConfusion hs'
    · intro _
      obtain ⟨i, e, hik, hle, hperm, hwrap, _⟩ := searchStart_err_spec _ _ _ _ hsearch
      exact ⟨hescs, hrsts, i, e, hik, hle, hperm, by rw [hres, hwrap]⟩

/-- Witness for the shrinking-search theorem: in the three-level chain
with `/a` non-traversable and an `Lstat` unit of work, the search stops
at prefix length 3 (the prefix `/a`), which stats successfully. -/
theorem wrap_shrinking_search_witness :
    ∃ fi, lstatOp (fnLstat (pth "/a/b/c") fs3).1
      (joinPath ((splitpath (dirname (pth "/a/b/c"))).take 3)) = .ok fi := by
  have h := (wrap_shrinking_search fs3 (pth "/a/b/c") fnLstat Err.eacces
    (by decide) (by decide)).1 3 (by decide)
  exact h.2.1

/-- Any error produced by the escalation walk itself is a wrapped
(fatal) error. -/
theorem escalateLoop_err_wrapped (parts : List P) :
    ∀ n i fs escs stack evs e',
      (escalateLoop parts n i fs escs stack evs).err = some e' →
      ∃ e0, e' = Err.wrapped e0 := by
  intro n
  induction n with
  | zero => intro i fs escs stack evs e' h; simp [escalateLoop] at h
  | succ n ih =>
    intro i fs escs stack evs e' h
    simp only [escalateLoop] at h
    split at h
    · rename_i e heq
      exact ⟨e, (Option.some.inj h).symm⟩
    · rename_i fi heq
      split at h
      · rename_i e heq2
        exact ⟨e, (Option.some.inj h).symm⟩
      · exact ih _ _ _ _ _ _ h

/-- Characterization of the escalation walk: starting at index `i` with
`n` remaining iterations it appends consecutive prefix joins starting
at `i`, each recorded with a chmod to its captured mode with `0o700`
added; it performs at most `n` escalations and exactly `n` when it does
not abort. -/
theorem escalateLoop_escs_spec (parts : List P) :
    ∀ n i fs escs stack evs,
      ∃ δ, (escalateLoop parts n i fs escs stack evs).escs = escs ++ δ ∧
        δ.length ≤ n ∧
        ((escalateLoop parts n i fs escs stack evs).err = none → δ.length = n) ∧
        ∀ j er, δ[j]? = some er →
          er.path = joinPath (parts.take (i + j)) ∧
          er.newMode = er.fi.mode ||| 0o700 := by
  intro n
  induction n with
  | zero =>
    intro i fs escs stack evs
    exact ⟨[], by simp [escalateLoop], by simp, by simp [escalateLoop],
      fun j er h => by simp at h⟩
  | succ n ih =>
    intro i fs escs stack evs
    cases hl : lstatOp fs (joinPath (parts.take i)) with
    | error e =>
      refine ⟨[], ?_, ?_, ?_, fun j er h => by simp at h⟩ <;>
        simp [escalateLoop, hl]
    | ok fi =>
      cases hc : chmodOp fs (joinPath (parts.take i)) (fi.mode ||| 0o700) with
      | error e =>
        refine ⟨[], ?_, ?_, ?_, fun j er h => by simp at h⟩ <;>
          simp [escalateLoop, hl, hc]
      | ok fs' =>
        obtain ⟨δ', hesc, hlen, herr, hidx⟩ := ih (i + 1) fs'
          (escs ++ [⟨joinPath (parts.take i), fi, fi.mode ||| 0o700⟩])
          ((joinPath (parts.take i), fi) :: stack)
          (evs ++ [Event.escalate (joinPath (parts.take i)) fi (fi.mode ||| 0o700)])
        refine ⟨⟨joinPath (parts.take i), fi, fi.mode ||| 0o700⟩ :: δ', ?_, ?_, ?_, ?_⟩
        · simp only [escalateLoop, hl, hc]
          simpa using hesc
        · simpa using Nat.succ_le_succ hlen
        · simp only [escalateLoop, hl, hc]
          intro hnone
          simpa using herr hnone
        · intro j er h
          match j with
          | 0 =>
            have her : er = ⟨joinPath (parts.take i), fi, fi.mode ||| 0o700⟩ := by
              simpa using h.symm
            subst her
            exact ⟨by simp, by simp⟩
          | j + 1 =>
            have h' : δ'[j]? = some er := by simpa using h
            have := hidx j er h'
            constructor
            · have harg : i + 1 + j = i + (j + 1) := by omega
              rw [← harg]
              exact this.1
            · exact this.2

/-- When the first call of `fn` fails with a permission error and the
shrinking search succeeds at `s`, `Wrap` records `start = s`, its
escalations are those of the walk launched at `s`, and if the walk
aborted then `Wrap` returns the walk's error. -/
theorem wrap_ok_branch {α : Type} (fs0 : FS) (path : P)
    (fn : P → FS → FS × Option Err × List Event × α)
    (e0 : Err) (h1 : (fn path fs0).2.1 = some e0) (h2 : isPermission e0 = true)
    (s : Nat)
    (hsearch : searchStart (fn path fs0).1 (splitpath (dirname path))
      (splitpath (dirname path)).length = .ok s) :
    (Wrap fs0 path fn).start = some s ∧
    (Wrap fs0 path fn).escs
      = (escalateLoop (splitpath (dirname path))
          ((splitpath (dirname path)).length + 1 - s) s (fn path fs0).1 [] [] []).escs ∧
    ((escalateLoop (splitpath (dirname path))
        ((splitpath (dirname path)).length + 1 - s) s (fn path fs0).1 [] [] []).err = none ∨
      (Wrap fs0 path fn).res
        = (escalateLoop (splitpath (dirname path))
            ((splitpath (dirname path)).length + 1 - s) s (fn path fs0).1 [] [] []).err) := by
  simp only [Wrap, h1]
  simp only [h2, not_true, if_false]
  split
  · rename_i e' heq
    rw [hsearch] at heq
    exact Except.noConfusion heq
  · rename_i s' heq
    rw [hsearch] at heq
    have hs' : s' = s := (Except.ok.inj heq).symm
    subst hs'
    split
    · rename_i e'' heq2
      exact ⟨rfl, rfl, Or.inr (by rw [heq2])⟩
    · rename_i heq2
      exact ⟨rfl, rfl, Or.inl heq2⟩

/-- C3 (amended): when the first invocation fails with a permission
error and the search found a start point `s`, the prefixes `Wrap`
chmods are exactly the consecutive joins of the parent's component-list
prefixes beginning at `s`, each set to its captured mode with owner
`rwx` (`0o700`) added; the walk runs through the full parent inclusive
unless it aborts with a wrapped fatal error; and whenever the cleaned
target is not itself one of the parent's prefix joins (it is one for
degenerate targets such as the root, whose parent is itself), no
escalated path equals the cleaned target — `Wrap` itself never chmods
the target. -/
theorem wrap_escalation_range {α : Type} (fs0 : FS) (path : P)
    (fn : P → FS → FS × Option Err × List Event × α)
    (e0 : Err) (h1 : (fn path fs0).2.1 = some e0) (h2 : isPermission e0 = true)
    (s : Nat) (hst : (Wrap fs0 path fn).start = some s) :
    (∀ j er, (Wrap fs0 path fn).escs[j]? = some er →
      er.path = joinPath ((splitpath (dirname path)).take (s + j)) ∧
      er.newMode = er.fi.mode ||| 0o700) ∧
    (Wrap fs0 path fn).escs.length ≤ (splitpath (dirname path)).length + 1 - s ∧
    (s + (Wrap fs0 path fn).escs.length = (splitpath (dirname path)).length + 1 ∨
      ∃ e', (Wrap fs0 path fn).res = some (Err.wrapped e')) ∧
    ((clean path ∉ (List.range ((splitpath (dirname path)).length + 1)).map
        (fun i => joinPath ((splitpath (dirname path)).take i))) →
      ∀ er ∈ (Wrap fs0 path fn).escs, ¬ (er.path = clean path)) := by
  rcases wrap_start_cases fs0 path fn e0 h1 h2 with
    ⟨s', hsearch, hstart⟩ | ⟨e', _, hstart, _⟩
  · have hss : s' = s := by rw [hstart] at hst; exact Option.some.inj hst
    subst hss
    obtain ⟨_, hescs, hdisj⟩ := wrap_ok_branch fs0 path fn e0 h1 h2 s' hsearch
    have hsle : s' ≤ (splitpath (dirname path)).length :=
      (searchStart_ok_spec _ _ _ _ hsearch).1
    obtain ⟨δ, hδ, hlen, herr, hidx⟩ :=
      escalateLoop_escs_spec (splitpath (dirname path))
        ((splitpath (dirname path)).length + 1 - s') s' (fn path fs0).1 [] [] []
    rw [List.nil_append] at hδ
    have hescδ : (Wrap fs0 path fn).escs = δ := by rw [hescs, hδ]
    have hidx' : ∀ j er, (Wrap fs0 path fn).escs[j]? = some er →
        er.path = joinPath ((splitpath (dirname path)).take (s' + j)) ∧
        er.newMode = er.fi.mode ||| 0o700 := by
      intro j er h
      rw [hescδ] at h
      exact hidx j er h
    have hlen' : (Wrap fs0 path fn).escs.length
        ≤ (splitpath (dirname path)).length + 1 - s' := by
      rw [hescδ]; exact hlen
    refine ⟨hidx', hlen', ?_, ?_⟩
    · rcases hdisj with hnone | hres
      · left
        have := herr hnone
        rw [hescδ, this]
        omega
      · rcases Option.eq_none_or_eq_some (escalateLoop (splitpath (dirname path))
            ((splitpath (dirname path)).length + 1 - s') s' (fn path fs0).1 [] [] []).err with
          hnone | ⟨ew, hew⟩
        · left
          have := herr hnone
          rw [hescδ, this]
          omega
        · right
          obtain ⟨e0', he0'⟩ := escalateLoop_err_wrapped _ _ _ _ _ _ _ _ hew
          exact ⟨e0', by rw [hres, hew, he0']⟩
    · intro hnotin er hmem heqp
      apply hnotin
      obtain ⟨j, hget⟩ := List.getElem?_of_mem hmem
      have hjlt : j < (Wrap fs0 path fn).escs.length := by
        by_contra hge
        rw [List.getElem?_eq_none (Nat.le_of_not_lt hge)] at hget
        exact Option.noConfusion hget
      have hp := (hidx' j er hget).1
      have hjle : s' + j < (splitpath (dirname path)).length + 1 := by omega
      refine List.mem_map.mpr ⟨s' + j, List.mem_range.mpr hjle, ?_⟩
      rw [← hp, heqp]
  · rw [hstart] at hst; exact Option.noConfusion hst

/-- Witness for the escalation-range theorem: in the three-level chain
the second escalated prefix is the full parent `/a/b`. -/
theorem wrap_escalation_range_witness :
    (Wrap fs3 (pth "/a/b/c") fnLstat).escs[1]?
        = some ⟨pth "/a/b", dirFi 0o755, 0o755 ||| 0o700⟩ ∧
    pth "/a/b" = joinPath ((splitpath (dirname (pth "/a/b/c"))).take (3 + 1)) := by
  constructor
  · decide
  · exact ((wrap_escalation_range fs3 (pth "/a/b/c") fnLstat Err.eacces (by decide)
      (by decide) 3 (by decide)).1 1 ⟨pth "/a/b", dirFi 0o755, 0o755 ||| 0o700⟩ (by decide)).1

/-- C3 counterexample: for the degenerate target `/` (whose parent is
itself), `Wrap` chmods the target path itself — the escalated-path list
of the run is exactly the target.  The original claim that the target
path is never chmodded is therefore false as stated. -/
theorem wrap_chmods_target_at_root :
    (Wrap fsRoot (pth "/") fnPerm).escs.map Esc.path = [pth "/"] := by decide

/-- C4 counterexample: in the three-level chain `/a/b/c` where only the
outermost directory `/a` is non-traversable, an `Lstat` routed through
`Wrap` escalates (chmods) and restores TWO ancestors — `/a` and the
already-traversable `/a/b` — not exactly one as claimed: the walk
chmods every prefix from the outermost accessible point through the
full parent, not only the ones missing bits. -/
theorem wrap_three_level_two_escalations :
    (Wrap fs3 (pth "/a/b/c") fnLstat).escs.map Esc.path = [pth "/a", pth "/a/b"] ∧
    (Wrap fs3 (pth "/a/b/c") fnLstat).rsts.map Prod.fst = [pth "/a/b", pth "/a"] ∧
    (Wrap fs3 (pth "/a/b/c") fnLstat).res = none := by decide

/-- C4 (amended): in the three-level chain with only the outermost
directory non-traversable, `Wrap` chmod-escalates and restores two
ancestors, of which exactly one — the outermost `/a` — has its mode
actually changed; in the four-level chain with the two outermost
non-traversable, three ancestors are chmod-escalated and restored, of
which exactly the two outermost have their modes changed.  In both
scenarios restoration runs in reverse, innermost-first order, the
wrapped operation succeeds, and the filesystem ends bit-identical to
its initial state. -/
theorem wrap_chain_scenarios :
    ((Wrap fs3 (pth "/a/b/c") fnLstat).escs.map Esc.path
        = [pth "/a", pth "/a/b"] ∧
     ((Wrap fs3 (pth "/a/b/c") fnLstat).escs.filter
        (fun er => decide (¬ (er.newMode = er.fi.mode)))).map Esc.path = [pth "/a"] ∧
     (Wrap fs3 (pth "/a/b/c") fnLstat).rsts.map Prod.fst = [pth "/a/b", pth "/a"] ∧
     (Wrap fs3 (pth "/a/b/c") fnLstat).res = none ∧
     (Wrap fs3 (pth "/a/b/c") fnLstat).fs = fs3) ∧
    ((Wrap fs4 (pth "/a/b/c/d") fnLstat).escs.map Esc.path
        = [pth "/a", pth "/a/b", pth "/a/b/c"] ∧
     ((Wrap fs4 (pth "/a/b/c/d") fnLstat).escs.filter
        (fun er => decide (¬ (er.newMode = er.fi.mode)))).map Esc.path
        = [pth "/a", pth "/a/b"] ∧
     (Wrap fs4 (pth "/a/b/c/d") fnLstat).rsts.map Prod.fst
        = [pth "/a/b/c", pth "/a/b", pth "/a"] ∧
     (Wrap fs4 (pth "/a/b/c/d") fnLstat).res = none ∧
     (Wrap fs4 (pth "/a/b/c/d") fnLstat).fs = fs4) := by decide

/-! ## Claims about `RemoveAll` -/

/-- C5 counterexample: removing the directory `/d` (mode `0700`,
containing one file), the events of the run that concern `/d` are, in
order: the initial failed remove, the chmod and deferred leaf restore
of `unpriv.Open`, the `mode | 0400` chmod before reading names, the
close of the handle, the final remove of the emptied directory, and
only THEN the deferred restore of its captured metadata.  The claimed
order (close, restore, then final removal) does not occur: the restore
is a `defer` and runs after the final removal attempt. -/
theorem removeAll_restore_after_final_remove :
    (removeAllFuel 3 fsD (pth "/d")).2.2.filter (onPath (pth "/d"))
      = [Event.removeAttempt (pth "/d"),
         Event.chmodEv (pth "/d") 0o700,
         Event.restore (pth "/d") (dirFi 0o700),
         Event.chmodEv (pth "/d") 0o700,
         Event.closeDir (pth "/d"),
         Event.removeAttempt (pth "/d"),
         Event.restore (pth "/d") (dirFi 0o700)] ∧
    (removeAllFuel 3 fsD (pth "/d")).2.1 = none := by decide

/-- C5 (amended): the finishing sequence of `RemoveAll`'s directory
branch closes the directory handle, then attempts the final removal of
the now-emptied directory, and the deferred restore of the directory's
captured metadata runs only after that removal attempt — on every exit
path of the closure (the restore's events follow the removal attempt
unconditionally, whatever the removal and child results were). -/
theorem removeAllFinish_order (fs : FS) (path : P) (fi : FileInfo)
    (childErr : Option Err) :
    (removeAllFinish fs path fi childErr).2.2
      = [Event.closeDir path, Event.removeAttempt path, Event.restore path fi] := rfl

/-- C6 counterexample: when the final removal of the emptied directory
fails with `ENOTEMPTY` (not an already-gone condition) and a child
error (`EIO`) was recorded, the closure returns the CHILD error, not
the removal error: the child error takes preference, contrary to the
claimed order. -/
theorem removeAllFinish_child_error_preferred :
    removeOp fsD (pth "/d") = .error Err.enotempty ∧
    (removeAllFinish fsD (pth "/d") (dirFi 0o700) (some Err.eio)).2.1
      = some Err.eio := by decide

/-- C6 (amended): when the final removal fails with an error that is
not an already-gone condition, the closure propagates the earliest
child error if one was recorded, and the removal error only when no
child error was recorded (child error first, removal error second). -/
theorem removeAllFinish_error_choice (fs : FS) (path : P) (fi : FileInfo)
    (childErr : Option Err) (e1 : Err)
    (h1 : removeOp fs path = .error e1) (h2 : isGoNotExist e1 = false) :
    (removeAllFinish fs path fi childErr).2.1 = some (childErr.getD e1) := by
  simp only [removeAllFinish, h1, h2]
  cases childErr <;> rfl

/-- Witness for the error-preference theorem at a concrete input: the
directory `/d` of `fsD` is non-empty, its removal fails with
`ENOTEMPTY`, and with a recorded `EIO` child error the closure returns
the child error. -/
theorem removeAllFinish_error_choice_witness :
    removeOp fsD (pth "/d") = .error Err.enotempty ∧
    isGoNotExist Err.enotempty = false ∧
    (removeAllFinish fsD (pth "/d") (dirFi 0o700) (some Err.eio)).2.1
      = some ((some Err.eio).getD Err.enotempty) :=
  ⟨by decide, by decide,
    removeAllFinish_error_choice fsD (pth "/d") (dirFi 0o700) (some Err.eio)
      Err.enotempty (by decide) (by decide)⟩

/-- C10: when the final removal of the emptied directory reports that
it no longer exists, the closure returns success even when a child
error was recorded: the recorded first child error is discarded. -/
theorem removeAllFinish_already_gone_nil (fs : FS) (path : P) (fi : FileInfo)
    (childErr : Option Err) (e1 : Err)
    (h1 : removeOp fs path = .error e1) (h2 : isGoNotExist e1 = true) :
    (removeAllFinish fs path fi childErr).2.1 = none := by
  simp [removeAllFinish, h1, h2]

/-- Witness: with the target already gone the final remove reports
`ENOENT` and the closure returns success despite a recorded `EIO`
child error. -/
theorem removeAllFinish_already_gone_nil_witness :
    removeOp fsGone (pth "/d") = .error Err.enoent ∧
    (removeAllFinish fsGone (pth "/d") (dirFi 0) (some Err.eio)).2.1 = none :=
  ⟨by decide,
    removeAllFinish_already_gone_nil fsGone (pth "/d") (dirFi 0) (some Err.eio)
      Err.enoent (by decide) (by decide)⟩

/-- C7 counterexample: removing the directory `/d` of mode `0`, every
plain chmod `RemoveAll` performs on `/d` (the leaf chmod inside
`unpriv.Open` and the chmod before reading names) sets mode
`0o400` — the read bit only; the execute bit (`0o100`) is never added,
contrary to the claim that read AND execute are added before
enumerating children. -/
theorem removeAll_adds_read_only :
    chmodModesOn (pth "/d") (removeAllFuel 3 fsD0 (pth "/d")).2.2 = [0o400, 0o400] ∧
    0o400 &&& 0o100 = 0 ∧
    (removeAllFuel 3 fsD0 (pth "/d")).2.1 = none := by decide

/-- C7 (amended): before enumerating the children for recursive
deletion, `RemoveAll` chmods the directory to its existing mode with
only the read bit (`0o400`) added: the loop phase's first recorded
event is that chmod. -/
theorem removeAllLoopPhase_chmod_read
    (ra : FS → P → FS × Option Err × List Event)
    (fs : FS) (path : P) (fi : FileInfo) (names : List P) :
    ∃ t, (removeAllLoopPhase ra fs path fi names).2.2
      = Event.chmodEv path (fi.mode ||| 0o400) :: t :=
  ⟨_, rfl⟩

/-- C8: removing an absent path reports success.  First part: for every
filesystem in which the target does not exist and its ancestor chain
resolves, `RemoveAll` (with any non-zero fuel) returns `nil` — the
plain remove fails with `ENOENT`, which the closure treats as nothing
to remove.  Second part: the case where the absent target sits behind a
non-traversable (permission-blocked) parent — exactly the state a first
`RemoveAll` leaves when it escalated a restrictive parent and restored
it — also returns `nil`, through the escalation path: two successive
calls on `/a/b` with `/a` at mode `0` both succeed, the second finding
the target absent and its parent chain permission-blocked. -/
theorem removeAll_absent_nil :
    (∀ (n : Nat) (fs : FS) (path : P),
      firstErrAnc fs (ancChain (clean path)) = none →
      lookupFS fs (clean path) = none →
      (removeAllFuel (n + 1) fs path).2.1 = none) ∧
    ((removeAllFuel 3 fsPB (pth "/a/b")).2.1 = none ∧
     lookupFS (removeAllFuel 3 fsPB (pth "/a/b")).1 (clean (pth "/a/b")) = none ∧
     firstErrAnc (removeAllFuel 3 fsPB (pth "/a/b")).1
       (ancChain (clean (pth "/a/b"))) = some Err.eacces ∧
     (removeAllFuel 3 (removeAllFuel 3 fsPB (pth "/a/b")).1 (pth "/a/b")).2.1 = none) := by
  constructor
  · intro n fs path hanc habs
    have hrm : removeOp fs path = .error Err.enoent := by
      simp [removeOp, hanc, habs]
    have hcl : (removeAllClosure (removeAllFuel n) path fs).2.1 = none := by
      simp [removeAllClosure, hrm, isGoNotExist]
    simp only [removeAllFuel, Wrap]
    simp [hcl]
  · exact ⟨by decide, by decide, by decide, by decide⟩

/-- Witness demonstrating idempotence: after a first `RemoveAll` has
removed `/d` (and its contents), the path is absent from the final
state, and a second `RemoveAll` on the same path reports success. -/
theorem removeAll_absent_nil_witness :
    firstErrAnc (removeAllFuel 3 fsD (pth "/d")).1 (ancChain (clean (pth "/d"))) = none ∧
    lookupFS (removeAllFuel 3 fsD (pth "/d")).1 (clean (pth "/d")) = none ∧
    (removeAllFuel 1 (removeAllFuel 3 fsD (pth "/d")).1 (pth "/d")).2.1 = none :=
  ⟨by decide, by decide,
    removeAll_absent_nil.1 0 (removeAllFuel 3 fsD (pth "/d")).1 (pth "/d")
      (by decide) (by decide)⟩

/-! ## Claims about path decomposition (`splitpath`) -/

/-- Splitting never yields an empty list of segments. -/
theorem splitSep_ne_nil (p : P) : ¬ (splitSep p = []) := by
  cases p with
  | nil => simp [splitSep]
  | cons c rest =>
    simp only [splitSep]
    split
    · simp
    · split <;> simp

/-- Every segment produced by splitting is separator-free. -/
theorem splitSep_sep_free (p : P) : ∀ s ∈ splitSep p, '/' ∉ s := by
  induction p with
  | nil => intro s hs; simp [splitSep] at hs; simp [hs]
  | cons c rest ih =>
    intro s hs
    simp only [splitSep] at hs
    by_cases hc : c = '/'
    · rw [if_pos hc] at hs
      rcases List.mem_cons.mp hs with h | h
      · simp [h]
      · exact ih s h
    · rw [if_neg hc] at hs
      cases hsp : splitSep rest with
      | nil => exact absurd hsp (splitSep_ne_nil rest)
      | cons s0 ss =>
        rw [hsp] at hs
        rcases List.mem_cons.mp hs with h | h
        · subst h
          intro hmem
          rcases List.mem_cons.mp hmem with h' | h'
          · exact hc h'.symm
          · exact ih s0 (hsp ▸ List.mem_cons_self s0 ss) h'
        · exact ih s (hsp ▸ List.mem_cons_of_mem s0 h)

/-- A separator-free string splits into the single segment itself. -/
theorem splitSep_no_sep (p : P) (h : '/' ∉ p) : splitSep p = [p] := by
  induction p with
  | nil => rfl
  | cons c rest ih =>
    have hc : ¬ (c = '/') := fun hc => h (hc ▸ List.mem_cons_self c rest)
    have hrest : '/' ∉ rest := fun hm => h (List.mem_cons_of_mem c hm)
    simp only [splitSep, if_neg hc, ih hrest]

/-- Splitting a separator-free prefix followed by a separator merges the
prefix into the head segment. -/
theorem splitSep_append_sep (x rest : P) (h : '/' ∉ x) :
    splitSep (x ++ '/' :: rest) = x :: splitSep rest := by
  induction x with
  | nil => simp [splitSep]
  | cons c x' ih =>
    have hc : ¬ (c = '/') := fun hc => h (hc ▸ List.mem_cons_self c x')
    have hx' : '/' ∉ x' := fun hm => h (List.mem_cons_of_mem c hm)
    simp only [List.cons_append, splitSep, if_neg hc, List.append_eq, ih hx']

/-- Splitting is a left inverse of joining for non-empty lists of
separator-free segments. -/
theorem splitSep_joinWithSep (L : List P) (hne : ¬ (L = []))
    (hfree : ∀ s ∈ L, '/' ∉ s) : splitSep (joinWithSep L) = L := by
  induction L with
  | nil => exact absurd rfl hne
  | cons x t ih =>
    cases t with
    | nil =>
      simp only [joinWithSep]
      exact splitSep_no_sep x (hfree x (List.mem_cons_self x []))
    | cons y t' =>
      simp only [joinWithSep]
      rw [splitSep_append_sep x _ (hfree x (List.mem_cons_self x (y :: t')))]
      rw [ih (by simp) (fun s hs => hfree s (List.mem_cons_of_mem x hs))]

/-- Every element kept by the `Clean` segment processor is non-empty and
separator-free, provided the accumulator's and input's elements are. -/
theorem cleanParts_inv (rooted : Bool) :
    ∀ l acc, (∀ s ∈ acc, ¬ (s = []) ∧ '/' ∉ s) → (∀ s ∈ l, '/' ∉ s) →
      ∀ s ∈ cleanParts rooted acc l, ¬ (s = []) ∧ '/' ∉ s := by
  intro l
  induction l with
  | nil =>
    intro acc hacc _ s hs
    simp only [cleanParts] at hs
    exact hacc s (List.mem_reverse.mp hs)
  | cons s0 l ih =>
    intro acc hacc hl s hs
    have hl' : ∀ s ∈ l, '/' ∉ s := fun s hsm => hl s (List.mem_cons_of_mem s0 hsm)
    have hs0 : '/' ∉ s0 := hl s0 (List.mem_cons_self s0 l)
    by_cases h1 : s0 = [] ∨ s0 = ['.']
    · rw [show cleanParts rooted acc (s0 :: l) = cleanParts rooted acc l by
        rw [cleanParts.eq_def]; simp only [if_pos h1]] at hs
      exact ih acc hacc hl' s hs
    · by_cases h2 : s0 = ['.', '.']
      · cases acc with
        | nil =>
          by_cases hr : rooted
          · rw [show cleanParts rooted [] (s0 :: l) = cleanParts rooted [] l by
              rw [cleanParts, if_neg h1, if_pos h2, if_pos hr]] at hs
            exact ih [] (by simp) hl' s hs
          · rw [show cleanParts rooted [] (s0 :: l) = cleanParts rooted [s0] l by
              rw [cleanParts, if_neg h1, if_pos h2, if_neg hr]] at hs
            refine ih [s0] ?_ hl' s hs
            intro s hsm
            rw [List.mem_singleton.mp hsm, h2]
            exact ⟨by simp, by simp⟩
        | cons t acc' =>
          by_cases h3 : t = ['.', '.']
          · rw [show cleanParts rooted (t :: acc') (s0 :: l)
                  = cleanParts rooted (s0 :: t :: acc') l by
              rw [cleanParts, if_neg h1, if_pos h2, if_pos h3]] at hs
            refine ih (s0 :: t :: acc') ?_ hl' s hs
            intro s hsm
            rcases List.mem_cons.mp hsm with h | h
            · rw [h, h2]; exact ⟨by simp, by simp⟩
            · exact hacc s h
          · rw [show cleanParts rooted (t :: acc') (s0 :: l)
                  = cleanParts rooted acc' l by
              rw [cleanParts, if_neg h1, if_pos h2, if_neg h3]] at hs
            exact ih acc' (fun s hsm => hacc s (List.mem_cons_of_mem t hsm)) hl' s hs
      · rw [show cleanParts rooted acc (s0 :: l) = cleanParts rooted (s0 :: acc) l by
          rw [cleanParts.eq_def]; simp only [if_neg h1, if_neg h2]] at hs
        refine ih (s0 :: acc) ?_ hl' s hs
        intro s hsm
        rcases List.mem_cons.mp hsm with h | h
        · push_neg at h1
          rw [h]
          exact ⟨h1.1, hs0⟩
        · exact hacc s h

/-- A non-empty list of non-empty separator-free segments joins into a
string that does not begin with the separator. -/
theorem joinWithSep_head (L : List P) (hne : ¬ (L = []))
    (hinv : ∀ s ∈ L, ¬ (s = []) ∧ '/' ∉ s) :
    ∃ c t, joinWithSep L = c :: t ∧ ¬ (c = '/') := by
  cases L with
  | nil => exact absurd rfl hne
  | cons x t =>
    have hx := hinv x (List.mem_cons_self x t)
    cases hxc : x with
    | nil => exact absurd hxc hx.1
    | cons c x' =>
      have hcs : ¬ (c = '/') := by
        intro hc
        exact hx.2 (by rw [hxc, hc]; exact List.mem_cons_self _ _)
      cases t with
      | nil => exact ⟨c, x', by simp [joinWithSep, hxc], hcs⟩
      | cons y t' => exact ⟨c, x' ++ '/' :: joinWithSep (y :: t'), by
          simp [joinWithSep, hxc], hcs⟩

/-- C9 counterexample: on the absolute path `/a` the code's `splitpath`
returns `["/", "", "a"]` — the root marker, a spurious EMPTY element
(an artifact of splitting the cleaned absolute path on the separator),
and the component — whereas the claimed "root marker followed by the
components and nothing else" would be `["/", "a"]`. -/
theorem splitpath_not_spec :
    splitpath (pth "/a") = [pth "/", pth "", pth "a"] ∧
    splitpathSpec (pth "/a") = [pth "/", pth "a"] ∧
    ¬ (splitpath (pth "/a") = splitpathSpec (pth "/a")) := by decide

/-- Filtering out empty segments drops a leading empty segment. -/
theorem filter_ne_nil_cons (L : List P) :
    (([] : P) :: L).filter (fun s => ¬ (s = [])) = L.filter (fun s => ¬ (s = [])) := by
  simp

/-- Filtering out empty segments is the identity when none are empty. -/
theorem filter_ne_nil_all {L : List P} (h : ∀ s ∈ L, ¬ (s = [])) :
    L.filter (fun s => ¬ (s = [])) = L :=
  List.filter_eq_self.mpr (fun a ha => by simpa using h a ha)

/-- C9 (amended): for relative paths `splitpath` is exactly the cleaned
component list; for absolute paths it is the root marker, then one
empty element, then the cleaned component list (a single empty element
standing in for the empty component list when the path cleans to the
root itself).  In particular the root marker is the first element
exactly when the path is absolute. -/
theorem splitpath_shape (p : P) :
    splitpath p =
      if isAbs (clean p) then
        rootMarker :: ([] : P) ::
          (if cleanComponents p = [] then [([] : P)] else cleanComponents p)
      else cleanComponents p := by
  have hinv : ∀ s ∈ cleanParts (isAbs p) [] (splitSep p), ¬ (s = []) ∧ '/' ∉ s :=
    cleanParts_inv (isAbs p) (splitSep p) [] (by simp) (splitSep_sep_free p)
  by_cases hab : isAbs p
  · rw [hab] at hinv
    have hclean : clean p = '/' :: joinWithSep (cleanParts true [] (splitSep p)) := by
      simp [clean, hab]
    by_cases hpe : cleanParts true [] (splitSep p) = []
    · have hcl2 : clean p = ['/'] := by rw [hclean, hpe]; rfl
      simp only [splitpath, cleanComponents, hcl2]
      decide
    · have hsplit : splitSep (joinWithSep (cleanParts true [] (splitSep p)))
          = cleanParts true [] (splitSep p) :=
        splitSep_joinWithSep _ hpe (fun s hs => (hinv s hs).2)
      have habs' : isAbs (clean p) = true := by rw [hclean]; rfl
      have hsc : splitSep (clean p) = [] :: cleanParts true [] (splitSep p) := by
        rw [hclean]
        simp only [splitSep, eq_self_iff_true, if_true]
        rw [hsplit]
      have hcc : cleanComponents p = cleanParts true [] (splitSep p) := by
        unfold cleanComponents
        rw [hsc, filter_ne_nil_cons,
          filter_ne_nil_all (fun s hs => (hinv s hs).1)]
      rw [hcc]
      simp only [splitpath, habs', if_true, if_neg hpe, hsc]
      rfl
  · rw [show isAbs p = false from Bool.eq_false_iff.mpr hab] at hinv
    by_cases hpe : cleanParts false [] (splitSep p) = []
    · have hclean : clean p = ['.'] := by
        simp [clean, Bool.eq_false_iff.mpr hab, hpe, joinWithSep]
      simp only [splitpath, cleanComponents, hclean]
      decide
    · obtain ⟨c, t, hct, hcs⟩ := joinWithSep_head _ hpe hinv
      have hjne : ¬ (joinWithSep (cleanParts false [] (splitSep p)) = []) := by
        rw [hct]; simp
      have hclean : clean p = joinWithSep (cleanParts false [] (splitSep p)) := by
        simp [clean, Bool.eq_false_iff.mpr hab, hjne]
      have habs' : isAbs (clean p) = false := by
        rw [hclean, hct]
        simp [isAbs, hcs]
      have hsplit : splitSep (clean p) = cleanParts false [] (splitSep p) := by
        rw [hclean]
        exact splitSep_joinWithSep _ hpe (fun s hs => (hinv s hs).2)
      have hcc : cleanComponents p = cleanParts false [] (splitSep p) := by
        unfold cleanComponents
        rw [hsplit, filter_ne_nil_all (fun s hs => (hinv s hs).1)]
      rw [hcc]
      simp only [splitpath, habs', hsplit]
      simp

end Unpriv
